import Mathlib

/-!
Shallow embedding of `src/autoname_functions.py` (IDA autonaming script).

Strings are modelled by Lean `String` (a wrapper around `List Char`); the
regular-expression operations of the source are translated into explicit
character-list scanners.  The IDA backend's mutable name table is modelled
as an association list from addresses to explicitly assigned names, with
the backend's auto-generated placeholder for an address `a` modelled as
`"sub_" ++ toString a`.  Printing of a successful rename (line 135) is the
audit trail of a run, modelled as a list of `(oldName, newName)` pairs.
-/

/-- Python `s.startswith(pre)`. -/
def strStarts (s pre : String) : Bool := List.isPrefixOf pre.data s.data

/-- Character class `[A-Za-z0-9_]` of `sanitizeString` (line 285). -/
def isWordChar (c : Char) : Bool := c.isAlphanum || c == '_'

/-- Character class `[\+ -#0]` (printf flags; the range ` -#` is space through `#`). -/
def isFlagChar (c : Char) : Bool :=
  c == '+' || c == ' ' || c == '!' || c == '\"' || c == '#' || c == '0'

/-- Character class `[\d\.]` (printf width and precision). -/
def isWidthChar (c : Char) : Bool := c.isDigit || c == '.'

/-- Character class `[lhLzjt]` (printf length modifiers). -/
def isLenChar (c : Char) : Bool :=
  c == 'l' || c == 'h' || c == 'L' || c == 'z' || c == 'j' || c == 't'

/-- Character class `[diufFeEgGxXoscpaAn]` (printf conversion characters). -/
def isConvChar (c : Char) : Bool :=
  c == 'd' || c == 'i' || c == 'u' || c == 'f' || c == 'F' || c == 'e' || c == 'E' ||
  c == 'g' || c == 'G' || c == 'x' || c == 'X' || c == 'o' || c == 's' || c == 'c' ||
  c == 'p' || c == 'a' || c == 'A' || c == 'n'

/-- Greedy `[lhLzjt]{0,2}`: drop up to two leading length-modifier characters. -/
def dropLen2 : List Char → List Char
  | [] => []
  | c :: rest =>
    if isLenChar c then
      match rest with
      | [] => []
      | c2 :: rest2 => if isLenChar c2 then rest2 else c2 :: rest2
    else c :: rest

/-- Match of the printf-directive regex body (everything after the literal `%`)
at the start of `s`; returns the remaining suffix on success.  The character
classes of the pattern overlap only between `0`-as-flag and `0`-as-digit, and
no class contains a conversion character, so the greedy scan without
backtracking is equivalent to the Python regex engine. -/
def matchPrintf (s : List Char) : Option (List Char) :=
  let s1 := s.dropWhile isFlagChar
  let s2 := s1.dropWhile isWidthChar
  let s3 := dropLen2 s2
  match s3 with
  | [] => none
  | c :: rest => if isConvChar c then some rest else none

/-- Fuelled scanner for the first substitution of `sanitizeString` (line 284):
replace every printf directive `%...` with `_`.  `re.sub` scans left to right,
replaces each leftmost non-overlapping match and resumes after it; on a failed
match at `%` it advances one character. -/
def sub1Go : Nat → List Char → List Char
  | 0, l => l
  | _ + 1, [] => []
  | fuel + 1, c :: rest =>
    if c == '%' then
      match matchPrintf rest with
      | some r => '_' :: sub1Go fuel r
      | none => c :: sub1Go fuel rest
    else c :: sub1Go fuel rest

/-- First substitution of `sanitizeString` (line 284). -/
def sub1 (l : List Char) : List Char := sub1Go l.length l

mutual

/-- Second substitution of `sanitizeString` (line 285): collapse every maximal
run of characters outside `[a-zA-Z0-9_]` into a single `_`. -/
def sub2 : List Char → List Char
  | [] => []
  | c :: rest => if isWordChar c then c :: sub2 rest else '_' :: sub2Drop rest

/-- Helper of `sub2`: inside a non-word run whose `_` has been emitted. -/
def sub2Drop : List Char → List Char
  | [] => []
  | c :: rest => if isWordChar c then c :: sub2 rest else sub2Drop rest

end

mutual

/-- Third substitution of `sanitizeString` (line 286): collapse every run of
`_` into a single `_`. -/
def sub3 : List Char → List Char
  | [] => []
  | c :: rest => if c == '_' then '_' :: sub3Drop rest else c :: sub3 rest

/-- Helper of `sub3`: inside an underscore run whose `_` has been emitted. -/
def sub3Drop : List Char → List Char
  | [] => []
  | c :: rest => if c == '_' then sub3Drop rest else c :: sub3 rest

end

/-- Removal of trailing underscores (half of Python `strip('_')`, line 287). -/
def dropTrailingU : List Char → List Char
  | [] => []
  | c :: rest =>
    match dropTrailingU rest with
    | [] => if c == '_' then [] else [c]
    | r => c :: r

/-- Python `s.strip('_')` (line 287). -/
def stripU (l : List Char) : List Char := dropTrailingU (l.dropWhile (fun c => c == '_'))

/-- Character-list body of `sanitizeString` (lines 282-287). -/
def sanitizeList (l : List Char) : List Char := stripU (sub3 (sub2 (sub1 l)))

/-- The function `sanitizeString` (lines 282-287). -/
def sanitizeString (s : String) : String := ⟨sanitizeList s.data⟩

/-- Absence of two consecutive underscores (used to state the spec's
"no doubled `_`" property). -/
def noDoubleU : List Char → Bool
  | [] => true
  | a :: rest => !(a == '_' && rest.head? == some '_') && noDoubleU rest

/-- Test of `BADPREFIXES_RE` (line 20): the backend's auto-placeholder name
patterns `^(sub|loc|flt|off|unk|byte|word|dword)_`. -/
def badAutoMatch (s : String) : Bool :=
  ["sub_", "loc_", "flt_", "off_", "unk_", "byte_", "word_", "dword_"].any
    (fun p => List.isPrefixOf p.data s.data)

/-- The predicate `Thing.isNamed` (lines 197-198): a non-empty name that does
not match the placeholder patterns. -/
def isNamedStr (s : String) : Bool := (s != "") && !(badAutoMatch s)

/-- Test of `AUTONAMED_RE` (line 21), the heuristic's own marker regex
`^z.?_`: a literal `z`, at most one further character (`.` does not match a
newline), then `_`. -/
def autonamedMatch : List Char → Bool
  | 'z' :: '_' :: _ => true
  | 'z' :: c :: '_' :: _ => c != '\n'
  | _ => false

/-- The function `stripExistingPrefix` (lines 114-118): if the name matches
`AUTONAMED_RE`, return `name[2:]`, else the name unchanged. -/
def stripExistingPrefix (name : String) : String :=
  if autonamedMatch name.data then ⟨name.data.drop 2⟩ else name

/-- Run statistics: the class `Stats` (lines 108-109) together with the audit
trail of successful renames (the success print at line 135, the spec's ordered
audit list of `(oldName, newName)` pairs). -/
structure Stats where
  renamesTotal : Nat
  audit : List (String × String)
deriving DecidableEq

/-- Outcome of one `safeName` call: the early return (no-op), a committed
rename, or exhaustion of every suffix candidate (the raise at line 140). -/
inductive SNResult where
  | noop : SNResult
  | renamed : String → SNResult
  | exhausted : SNResult
deriving DecidableEq

/-- Candidate list of `safeName` (lines 131-132): suffixes `"" , "0", ..., "9999"`
appended to the base name, in loop order. -/
def snCandidates (baseName : String) : List String :=
  ([""] ++ (List.range' 0 10000).map (fun x => toString x)).map
    (fun suffix => baseName ++ suffix)

/-- Core of `safeName` (lines 123-140) with the backend's atomic
"create name if not already taken" operation abstracted as the acceptance
predicate `free` (`MakeNameEx` returning nonzero, line 133-134). -/
def safeName (free : String → Bool) (baseName oldName : String) : SNResult :=
  if oldName == baseName || strStarts oldName baseName then .noop
  else
    match (snCandidates baseName).find? free with
    | some n => .renamed n
    | none => .exhausted

/-- The function `safeName` together with its effect on the run statistics:
`Stats.renamesTotal` is incremented at line 129, before the candidate loop,
hence in both non-no-op outcomes; the audit pair is emitted only on success
(line 135). -/
def safeNameStats (free : String → Bool) (baseName oldName : String) (st : Stats) :
    SNResult × Stats :=
  match safeName free baseName oldName with
  | .noop => (.noop, st)
  | .renamed n => (.renamed n, ⟨st.renamesTotal + 1, st.audit ++ [(oldName, n)]⟩)
  | .exhausted => (.exhausted, ⟨st.renamesTotal + 1, st.audit⟩)

/-- Backend state: the name table of explicitly assigned names.  `Name(a)`
for an address without an explicit name yields the auto placeholder, modelled
as `"sub_" ++ toString a`. -/
structure BState where
  user : List (Nat × String)
deriving DecidableEq

/-- Backend `Name(a)` (with `Demangle` modelled as the identity: the model
carries already-demangled names). -/
def getName (st : BState) (a : Nat) : String :=
  match st.user.find? (fun p => p.1 == a) with
  | some p => p.2
  | none => "sub_" ++ toString a

/-- Backend mutation underlying a successful `MakeNameEx`: address `a` now
carries name `n` and no longer carries its previous name. -/
def setUser (st : BState) (a : Nat) (n : String) : BState :=
  ⟨(a, n) :: st.user.filter (fun p => p.1 != a)⟩

/-- Success condition of `MakeNameEx(addr, name, ...)` (line 133): the name is
not already taken at a different address. -/
def isFreeName (st : BState) (addr : Nat) (name : String) : Bool :=
  !(st.user.any (fun p => p.2 == name && p.1 != addr))

/-- Stateful `safeName` against the backend name table.  Exhaustion of all
candidates raises (line 140): modelled as an `error` result that carries the
state at the raise — the table is untouched by the failed call and the
counter was already incremented, and nothing already committed is undone. -/
def safeNameB (st : BState) (stats : Stats) (addr : Nat) (baseName oldName : String) :
    Except (BState × Stats) (BState × Stats) :=
  match safeNameStats (isFreeName st addr) baseName oldName stats with
  | (.noop, stats') => .ok (st, stats')
  | (.renamed n, stats') => .ok (setUser st addr n, stats')
  | (.exhausted, stats') => .error (st, stats')

/-- The reference filter of `Thing.getXrefs` (lines 175-193): from the set of
outward reference targets, keep those with `to < addr or to > endEA`
(line 190).  The Python set of retained targets is modelled as the retained
list. -/
def getXrefs (addr endEA : Nat) (targets : List Nat) : List Nat :=
  targets.filter (fun t => decide (t < addr) || decide (endEA < t))

/-- The class `MarkovState` (lines 83-100): per-source edge counts (a Python
dict, modelled as an association list with distinct keys) and the running
total (field `transistions_total`, spelling as in the source). -/
structure MarkovState where
  stateID : Nat
  transistions_total : Nat
  edges : List (Nat × Nat)
deriving DecidableEq

/-- Count of edges to `toStateID` (`self.edges[toStateID]`). -/
def lookupCount (edges : List (Nat × Nat)) (toStateID : Nat) : Nat :=
  match edges.find? (fun p => p.1 == toStateID) with
  | some p => p.2
  | none => 0

/-- The method `MarkovState.addTransition` (lines 92-97). -/
def MarkovState.addTransition (s : MarkovState) (toStateID : Nat) : MarkovState :=
  if s.edges.any (fun p => p.1 == toStateID) then
    ⟨s.stateID, s.transistions_total + 1,
      s.edges.map (fun p => if p.1 == toStateID then (p.1, p.2 + 1) else p)⟩
  else
    ⟨s.stateID, s.transistions_total + 1, s.edges ++ [(toStateID, 1)]⟩

/-- The method `MarkovState.weight` (lines 99-100); true division from
`from __future__ import division`, modelled over `ℚ`. -/
def MarkovState.weight (s : MarkovState) (toStateID : Nat) : ℚ :=
  (lookupCount s.edges toStateID : ℚ) / (s.transistions_total : ℚ)

/-- Per-source body of `MarkovModel.cull` (lines 43-52): collect every
destination of weight strictly below the cutoff and delete it. -/
def MarkovState.cull (s : MarkovState) (cutoffWeight : ℚ) : MarkovState :=
  ⟨s.stateID, s.transistions_total,
    s.edges.filter (fun p => !(decide (s.weight p.1 < cutoffWeight)))⟩

/-- The class `MarkovModel` (lines 28-52): states keyed by source id. -/
structure MarkovModel where
  states : List MarkovState

/-- The method `MarkovModel.cull` (lines 43-52). -/
def MarkovModel.cull (m : MarkovModel) (cutoffWeight : ℚ) : MarkovModel :=
  ⟨m.states.map (fun s => s.cull cutoffWeight)⟩

/-- Qualification test of `processStringXrefs` (line 304): the referencing
function's current name starts with `sub_` or `z_`. -/
def qualifiesName (name : String) : Bool :=
  strStarts name "sub_" || strStarts name "z_"

/-- The links collected by `processStringXrefs` (lines 293-307): one entry per
incoming reference whose referencing function exists and qualifies.  An xref
is `(refAddr, func?)` where `func?` is the containing function's start address
and current name, if any. -/
def stringLinks (xrefs : List (Nat × Option (Nat × String))) (text : String) :
    List (Nat × Nat × String) :=
  xrefs.filterMap (fun x =>
    match x.2 with
    | some (funcAddr, functionName) =>
      if qualifiesName functionName then some (funcAddr, x.1, text) else none
    | none => none)

/-- Lookup in the candidate dictionary `functionsHash`. -/
def hashFind (h : List (Nat × Nat × Nat × String)) (k : Nat) :
    Option (Nat × Nat × String) :=
  match h.find? (fun p => p.1 == k) with
  | some p => some p.2
  | none => none

/-- Update of the candidate dictionary `functionsHash[funcAddr] = link`. -/
def hashSet (h : List (Nat × Nat × Nat × String)) (k : Nat) (v : Nat × Nat × String) :
    List (Nat × Nat × Nat × String) :=
  (k, v) :: h.filter (fun p => p.1 != k)

/-- The function `processStringXrefs` (lines 292-319) for one string literal:
collect the qualifying links, and only when exactly one link exists record it
in `functionsHash`, keeping an already recorded candidate for the same
function when its reference address is lower. -/
def processStringXrefs (xrefs : List (Nat × Option (Nat × String))) (text : String)
    (h : List (Nat × Nat × Nat × String)) : List (Nat × Nat × Nat × String) :=
  match stringLinks xrefs text with
  | [link] =>
    match hashFind h link.1 with
    | none => hashSet h link.1 link
    | some lastLink => if link.2.1 < lastLink.2.1 then hashSet h link.1 link else h
  | _ => h

/-- Name applied to a function by `renameFunctionsBasedOnStrings`
(line 346): `'z_%s' % sanitizeString(string)`, with no truncation. -/
def funcStringName (text : String) : String := "z_" ++ sanitizeString text

/-- Name applied to a string literal by `fixupIdaStringNames`
(lines 356-357): the same formula, then `newName[:256]`. -/
def fixupStringName (text : String) : String := ⟨(funcStringName text).data.take 256⟩

/-- The function `renameFunctions` (lines 247-263) as the code stands: for an
already named function the body is skipped, but for any unnamed function the
code evaluates `func.xrefsFrom()` (line 255) — and `Thing.xrefsFrom` is
commented out in the source (lines 169-172), so Python raises
`AttributeError` before any rename; the raise is modelled as an error
result. -/
def renameFunctions (funcAddrs : List Nat) (st : BState) (stats : Stats) :
    Except String (BState × Stats × Nat) :=
  match funcAddrs with
  | [] => .ok (st, stats, 0)
  | f :: rest =>
    if isNamedStr (getName st f) then renameFunctions rest st stats
    else .error "AttributeError: Thing instance has no attribute xrefsFrom"

/-- Inner destination loop of one source in a `tester` pass (lines 406-418):
`sourceThing` was constructed once at the start of the visit, so every
`safeName` call passes the stale pre-visit name `sourceName` as `oldName`,
while the destination's name is read from the current backend state; the
pass's `changes` counter is incremented once per named destination. -/
def testerVisitEdges (sourceID : Nat) (sourceName : String) :
    BState → Stats → Nat → List Nat → Except (BState × Stats) (BState × Stats × Nat)
  | st, stats, changes, [] => .ok (st, stats, changes)
  | st, stats, changes, d :: rest =>
    let destName := getName st d
    if isNamedStr destName then
      match safeNameB st stats sourceID ("z_" ++ stripExistingPrefix destName) sourceName with
      | .ok (st', stats') => testerVisitEdges sourceID sourceName st' stats' (changes + 1) rest
      | .error e => .error e
    else testerVisitEdges sourceID sourceName st stats changes rest

/-- Visit of one Markov source in a `tester` pass (lines 406-418):
`Thing(sourceID)` is built once, its name is checked once, and each surviving
edge destination is processed in order. -/
def testerVisitSource (st : BState) (stats : Stats) (sourceID : Nat)
    (edgeDests : List Nat) : Except (BState × Stats) (BState × Stats × Nat) :=
  let sourceName := getName st sourceID
  if isNamedStr sourceName then .ok (st, stats, 0)
  else testerVisitEdges sourceID sourceName st stats 0 edgeDests

/-! Helper lemmas. -/

/-- Rebuilding a string from its character data is the identity. -/
theorem strMk_data (s : String) : String.mk s.data = s := rfl

/-- Membership in the retained reference set of `Thing.getXrefs`. -/
theorem mem_getXrefs (addr endEA t : Nat) (targets : List Nat) :
    t ∈ getXrefs addr endEA targets ↔ (t ∈ targets ∧ (t < addr ∨ endEA < t)) := by
  simp [getXrefs, List.mem_filter]

/-! Claim C3. -/

/-- Claim C3, counterexample: a target equal to `endAddr` lies outside the
half-open owned range `[addr, endAddr)` (here `[0, 4)` with target `4`), yet
`Thing.getXrefs` does not retain it, because line 190 tests `to > self.endEA`
strictly.  The claim asserts such a target is retained. -/
theorem getXrefs_drops_endAddr :
    getXrefs 0 4 [4] = [] ∧ ¬ (4 ∈ getXrefs 0 4 [4]) ∧ ¬ (4 < 4) :=
  ⟨by decide, by decide, by decide⟩

/-- Claim C3 (amended): `getXrefs` retains exactly the enumerated targets that
are strictly below `addr` or strictly above `endAddr`; a target equal to
`endAddr` is dropped together with the owned range, and no retained target
lies inside `[addr, endAddr)`. -/
theorem getXrefs_characterization (addr endEA : Nat) (targets : List Nat) :
    (∀ t, t ∈ getXrefs addr endEA targets ↔ (t ∈ targets ∧ (t < addr ∨ endEA < t)))
    ∧ (∀ t ∈ getXrefs addr endEA targets, ¬ (addr ≤ t ∧ t < endEA)) := by
  refine ⟨fun t => mem_getXrefs addr endEA t targets, fun t ht => ?_⟩
  rcases (mem_getXrefs addr endEA t targets).mp ht with ⟨-, h | h⟩ <;> omega

/-- Claim C3, witness: the characterization applied to a concrete node
`[10, 20)` with targets `5` (retained) and `12` (internal, dropped). -/
theorem getXrefs_characterization_witness :
    (5 ∈ getXrefs 10 20 [5, 12]) ∧ ¬ (10 ≤ 5 ∧ 5 < 20) :=
  ⟨by decide, (getXrefs_characterization 10 20 [5, 12]).2 5 (by decide)⟩

/-! Claim C4. -/

/-- Claim C4, counterexample: `"za_foo"` matches the marker pattern
`^z.?_` with a three-character marker `za_`, but `stripExistingPrefix`
removes only `name[2:]`, i.e. exactly two characters, leaving the marker's
underscore at the front of the result. -/
theorem stripExistingPrefix_leaves_underscore :
    stripExistingPrefix "za_foo" = "_foo" ∧ strStarts "_foo" "_" = true :=
  ⟨by decide, by decide⟩

/-- Claim C4 (amended): when the name matches the marker pattern,
`stripExistingPrefix` removes exactly the first two characters — the entire
marker for the two-character marker `z_`, while for a three-character marker
the underscore survives; a non-matching name is returned unchanged. -/
theorem stripExistingPrefix_semantics (name : String) :
    (autonamedMatch name.data = false → stripExistingPrefix name = name)
    ∧ (autonamedMatch name.data = true →
        (stripExistingPrefix name).data = name.data.drop 2)
    ∧ (∀ t : String, stripExistingPrefix ("z_" ++ t) = t) := by
  refine ⟨fun h => ?_, fun h => ?_, fun t => ?_⟩
  · simp [stripExistingPrefix, h]
  · simp [stripExistingPrefix, h]
  · have hd : ("z_" ++ t).data = 'z' :: '_' :: t.data := by
      simp [String.data_append]
    simp [stripExistingPrefix, hd, autonamedMatch]

/-- Claim C4, witness: the amended semantics applied to the marker name
`"z_foo"` (full removal) and the unmarked name `"main"` (unchanged). -/
theorem stripExistingPrefix_semantics_witness :
    stripExistingPrefix "z_foo" = "foo" ∧ stripExistingPrefix "main" = "main" :=
  ⟨(stripExistingPrefix_semantics "z_foo").2.2 "foo",
   (stripExistingPrefix_semantics "main").1 (by decide)⟩

/-! Claim C8. -/

/-- Claim C8: `renameFunctions` on the smallest chain instance — the unnamed
function at address `0` whose single outward reference targets the named
function at address `1` — aborts with the modelled `AttributeError` instead
of renaming anything, because line 255 calls `Thing.xrefsFrom`, a method that
only exists as the commented-out block at lines 169-172.  The fixed-point
behaviour the claim (and the spec) describe is the evident intent; the code
as written cannot execute a single Strategy A pass over an unnamed node. -/
theorem renameFunctions_attribute_error :
    renameFunctions [0, 1] ⟨[(1, "target")]⟩ ⟨0, []⟩ =
      .error "AttributeError: Thing instance has no attribute xrefsFrom"
    ∧ isNamedStr (getName ⟨[(1, "target")]⟩ 0) = false
    ∧ isNamedStr (getName ⟨[(1, "target")]⟩ 1) = true :=
  ⟨rfl, by decide, by decide⟩

/-! Claims C1 and C2: the safe rename protocol. -/

/-- Search of the candidate loop: the first accepted candidate is found. -/
theorem find?_first_accepted {α : Type} (p : α → Bool) :
    ∀ (l₁ : List α) (c : α) (l₂ : List α), (∀ x ∈ l₁, p x = false) → p c = true →
      (l₁ ++ c :: l₂).find? p = some c := by
  intro l₁
  induction l₁ with
  | nil => intro c l₂ _ hc; simp [List.find?_cons, hc]
  | cons a t ih =>
    intro c l₂ h hc
    have ha : p a = false := h a (by simp)
    simp only [List.cons_append, List.find?_cons, ha]
    exact ih c l₂ (fun x hx => h x (by simp [hx])) hc

/-- Claim C1, counterexample: a `safeName` call in which every candidate is
rejected still increments `Stats.renamesTotal`, because the increment happens
at line 129, before the candidate loop; the claim says such a call leaves the
counter unchanged. -/
theorem safeName_exhausted_increments :
    safeNameStats (fun _ => false) "z_a" "sub_1" ⟨0, []⟩ = (.exhausted, ⟨1, []⟩) := by
  have h : (snCandidates "z_a").find? (fun _ => false) = none :=
    List.find?_eq_none.mpr (by intro x _; simp)
  have hs : strStarts "sub_1" "z_a" = false := by decide
  simp [safeNameStats, safeName, h, hs]

/-- Claim C1 (amended): a call with `oldName == baseName` or `oldName`
starting with `baseName` is a no-op and leaves the statistics unchanged;
any other call increments `renamesTotal` exactly once — before any candidate
is attempted, hence also when every candidate is rejected — and appends the
`(oldName, newName)` audit entry exactly on success. -/
theorem safeName_counter_semantics (free : String → Bool) (base old : String) (st : Stats) :
    ((old == base || strStarts old base) = true →
      safeNameStats free base old st = (.noop, st))
    ∧ ((old == base || strStarts old base) = false →
      ((safeNameStats free base old st).2.renamesTotal = st.renamesTotal + 1
        ∧ (∀ n, (safeNameStats free base old st).1 = SNResult.renamed n →
            (safeNameStats free base old st).2.audit = st.audit ++ [(old, n)])
        ∧ ((safeNameStats free base old st).1 = SNResult.exhausted →
            (safeNameStats free base old st).2.audit = st.audit))) := by
  constructor
  · intro h
    simp [safeNameStats, safeName, h]
  · intro h
    cases hf : (snCandidates base).find? free with
    | none =>
      refine ⟨?_, ?_, ?_⟩ <;> simp [safeNameStats, safeName, h, hf]
    | some n =>
      refine ⟨?_, ?_, ?_⟩ <;> simp [safeNameStats, safeName, h, hf]

/-- Claim C1, witness: a committing call (`free` accepts the base name) from
old name `"sub_1"` increments the counter from `0` to `1`. -/
theorem safeName_counter_semantics_witness :
    (("sub_1" == "z_a" || strStarts "sub_1" "z_a") = false)
    ∧ (safeNameStats (fun n => n == "z_a") "z_a" "sub_1" ⟨0, []⟩).2.renamesTotal = 0 + 1 :=
  ⟨by decide,
   ((safeName_counter_semantics (fun n => n == "z_a") "z_a" "sub_1" ⟨0, []⟩).2 (by decide)).1⟩

/-- Claim C2: for a non-no-op call the candidates are exactly `baseName`,
`baseName ++ "0"`, ..., `baseName ++ "9999"` in that order; the first
candidate the backend accepts is committed and the call returns successfully;
and when every one of the 10001 candidates is rejected the call fails with
the fatal raise (modelled as the `error` outcome), the name table exactly as
it was — no rename already committed in it is rolled back. -/
theorem safeName_candidate_order (free : String → Bool) (base old : String)
    (hno : (old == base || strStarts old base) = false) :
    snCandidates base = base :: (List.range 10000).map (fun x => base ++ toString x)
    ∧ (List.range 10000).length = 10000
    ∧ (∀ l₁ c l₂, snCandidates base = l₁ ++ c :: l₂ → (∀ x ∈ l₁, free x = false) →
        free c = true → safeName free base old = .renamed c)
    ∧ ((∀ c ∈ snCandidates base, free c = false) → safeName free base old = .exhausted)
    ∧ (∀ (st : BState) (stats : Stats) (addr : Nat),
        (∀ c ∈ snCandidates base, isFreeName st addr c = false) →
        safeNameB st stats addr base old =
          .error (st, ⟨stats.renamesTotal + 1, stats.audit⟩)) := by
  refine ⟨?_, by simp, ?_, ?_, ?_⟩
  · simp [snCandidates, List.range_eq_range', List.map_map]
  · intro l₁ c l₂ hsplit h1 hc
    have : (snCandidates base).find? free = some c := by
      rw [hsplit]; exact find?_first_accepted free l₁ c l₂ h1 hc
    simp [safeName, hno, this]
  · intro hall
    have : (snCandidates base).find? free = none := List.find?_eq_none.mpr (by
      intro x hx
      simp [hall x hx])
    simp [safeName, hno, this]
  · intro st stats addr hall
    have : (snCandidates base).find? (isFreeName st addr) = none := List.find?_eq_none.mpr (by
      intro x hx
      simp [hall x hx])
    simp [safeNameB, safeNameStats, safeName, hno, this]

/-- Claim C2, witness: a backend that rejects every name (an adversarial
`free`) drives a non-no-op call into the exhaustion outcome. -/
theorem safeName_candidate_order_witness :
    (("sub_1" == "z_b" || strStarts "sub_1" "z_b") = false)
    ∧ safeName (fun _ => false) "z_b" "sub_1" = .exhausted :=
  ⟨by decide,
   (safeName_candidate_order (fun _ => false) "z_b" "sub_1" (by decide)).2.2.2.1
     (by intro c _; rfl)⟩

/-! Claim C5: the string anchor resolver. -/

/-- Lookup after an overwriting insert into `functionsHash`. -/
theorem hashFind_hashSet (h : List (Nat × Nat × Nat × String)) (k : Nat)
    (v : Nat × Nat × String) : hashFind (hashSet h k v) k = some v := by
  simp [hashFind, hashSet]

/-- Claim C5, counterexample: the string `"hello"` is referenced twice by one
and the same qualifying function (address `100`, name `"sub_A"`), so exactly
one distinct referencing function qualifies, yet `processStringXrefs` records
no candidate, because line 309 tests `len(links) == 1` and `links` holds one
entry per reference, not per distinct function. -/
theorem processStringXrefs_same_function_twice :
    processStringXrefs [(10, some (100, "sub_A")), (12, some (100, "sub_A"))] "hello" [] = []
    ∧ (stringLinks [(10, some (100, "sub_A")), (12, some (100, "sub_A"))] "hello").map
        (fun l => l.1) = [100, 100] :=
  ⟨by decide, by decide⟩

/-- Claim C5 (amended): a candidate is recorded if and only if exactly one
qualifying incoming reference exists — references are counted, not distinct
functions, so a string referenced two or more times by the same qualifying
function yields no candidate; when a single qualifying link exists, the hash
afterwards maps its function to that link, unless an earlier recorded link of
the same function has a strictly lower reference address, which is kept. -/
theorem processStringXrefs_single_link_rule (xrefs : List (Nat × Option (Nat × String)))
    (text : String) (h : List (Nat × Nat × Nat × String)) :
    ((stringLinks xrefs text).length ≠ 1 → processStringXrefs xrefs text h = h)
    ∧ (∀ link, stringLinks xrefs text = [link] →
        hashFind (processStringXrefs xrefs text h) link.1 =
          some (match hashFind h link.1 with
                | none => link
                | some lastLink => if link.2.1 < lastLink.2.1 then link else lastLink)) := by
  constructor
  · intro hlen
    cases hl : stringLinks xrefs text with
    | nil => simp [processStringXrefs, hl]
    | cons a t =>
      cases t with
      | nil => exact absurd (by rw [hl]; rfl) hlen
      | cons b t2 => simp [processStringXrefs, hl]
  · intro link hl
    cases hf : hashFind h link.1 with
    | none =>
      simp only [processStringXrefs, hl, hf]
      exact hashFind_hashSet h link.1 link
    | some lastLink =>
      simp only [processStringXrefs, hl, hf]
      by_cases hlt : link.2.1 < lastLink.2.1
      · simp only [if_pos hlt]
        exact hashFind_hashSet h link.1 link
      · simp only [if_neg hlt]
        simp [hf]

/-- Claim C5, witness: a single qualifying reference from function `100`
records the candidate `(100, 10, "hi")` into the empty hash. -/
theorem processStringXrefs_single_link_rule_witness :
    stringLinks [(10, some (100, "sub_A"))] "hi" = [(100, 10, "hi")]
    ∧ hashFind (processStringXrefs [(10, some (100, "sub_A"))] "hi" []) 100 =
        some (100, 10, "hi") :=
  ⟨by decide,
   (processStringXrefs_single_link_rule [(10, some (100, "sub_A"))] "hi" []).2
     (100, 10, "hi") (by decide)⟩

/-! Sanitizer lemmas, leading to claims C9 and C6. -/

/-- A word-only list contains no `%`, so the printf substitution is the
identity on it. -/
theorem sub1Go_word : ∀ l : List Char, (∀ c ∈ l, isWordChar c = true) →
    sub1Go l.length l = l := by
  intro l
  induction l with
  | nil => intro _; rfl
  | cons c rest ih =>
    intro hw
    have hc : (c == '%') = false := by
      cases h : c == '%' with
      | true =>
        have hcp : c = '%' := by simpa using h
        have hx := hw c (by simp)
        rw [hcp] at hx
        simp [isWordChar] at hx
      | false => rfl
    show sub1Go (rest.length + 1) (c :: rest) = c :: rest
    simp only [sub1Go, hc, Bool.false_eq_true, if_false]
    exact congrArg (c :: ·) (ih (fun x hx => hw x (by simp [hx])))

/-- Every character emitted by the non-word-run substitution is a word
character. -/
theorem sub2_word : ∀ l : List Char,
    (∀ c ∈ sub2 l, isWordChar c = true) ∧ (∀ c ∈ sub2Drop l, isWordChar c = true) := by
  intro l
  induction l with
  | nil => exact ⟨by simp [sub2], by simp [sub2Drop]⟩
  | cons a rest ih =>
    cases ha : isWordChar a with
    | true =>
      constructor
      · intro c hc
        simp only [sub2, ha, if_true] at hc
        rcases List.mem_cons.mp hc with rfl | hc
        · exact ha
        · exact ih.1 c hc
      · intro c hc
        simp only [sub2Drop, ha, if_true] at hc
        rcases List.mem_cons.mp hc with rfl | hc
        · exact ha
        · exact ih.1 c hc
    | false =>
      constructor
      · intro c hc
        simp only [sub2, ha, Bool.false_eq_true, if_false] at hc
        rcases List.mem_cons.mp hc with rfl | hc
        · decide
        · exact ih.2 c hc
      · intro c hc
        simp only [sub2Drop, ha, Bool.false_eq_true, if_false] at hc
        exact ih.2 c hc

/-- The non-word-run substitution is the identity on word-only lists. -/
theorem sub2_id_word : ∀ l : List Char, (∀ c ∈ l, isWordChar c = true) → sub2 l = l := by
  intro l
  induction l with
  | nil => intro _; rfl
  | cons a rest ih =>
    intro hw
    have ha : isWordChar a = true := hw a (by simp)
    simp only [sub2, ha, if_true]
    exact congrArg (a :: ·) (ih (fun x hx => hw x (by simp [hx])))

/-- Underscore-run collapsing: the output has no doubled underscore, the
drop-mode output never starts with an underscore, and every output character
is either from the input or an underscore. -/
theorem sub3_props : ∀ l : List Char,
    noDoubleU (sub3 l) = true ∧ noDoubleU (sub3Drop l) = true
    ∧ (sub3Drop l).head? ≠ some '_'
    ∧ (∀ c ∈ sub3 l, c ∈ l ∨ c = '_') ∧ (∀ c ∈ sub3Drop l, c ∈ l ∨ c = '_') := by
  intro l
  induction l with
  | nil => exact ⟨rfl, rfl, by simp [sub3Drop], by simp [sub3], by simp [sub3Drop]⟩
  | cons a rest ih =>
    obtain ⟨ih1, ih2, ih3, ih4, ih5⟩ := ih
    cases ha : a == '_' with
    | true =>
      have ha' : a = '_' := by simpa using ha
      refine ⟨?_, ?_, ?_, ?_, ?_⟩
      · simp only [sub3, ha, if_true, noDoubleU, Bool.and_eq_true, Bool.not_eq_true']
        refine ⟨?_, ih2⟩
        simp only [Bool.and_eq_false_iff]
        right
        cases hh : (sub3Drop rest).head? with
        | none => rfl
        | some x =>
          cases hx : x == '_' with
          | true =>
            exact absurd (hh.trans (by simpa using congrArg some (by simpa using hx)))
              ih3
          | false => simpa using hx
      · simp only [sub3Drop, ha, if_true]
        exact ih2
      · simp only [sub3Drop, ha, if_true]
        exact ih3
      · intro c hc
        simp only [sub3, ha, if_true] at hc
        rcases List.mem_cons.mp hc with rfl | hc
        · exact Or.inr rfl
        · rcases ih5 c hc with h | h
          · exact Or.inl (by simp [h])
          · exact Or.inr h
      · intro c hc
        simp only [sub3Drop, ha, if_true] at hc
        rcases ih5 c hc with h | h
        · exact Or.inl (by simp [h])
        · exact Or.inr h
    | false =>
      refine ⟨?_, ?_, ?_, ?_, ?_⟩
      · simp only [sub3, ha, Bool.false_eq_true, if_false, noDoubleU,
          Bool.and_eq_true, Bool.not_eq_true']
        exact ⟨by simp [ha], ih1⟩
      · simp only [sub3Drop, ha, Bool.false_eq_true, if_false, noDoubleU,
          Bool.and_eq_true, Bool.not_eq_true']
        exact ⟨by simp [ha], ih1⟩
      · simp only [sub3Drop, ha, Bool.false_eq_true, if_false, List.head?_cons]
        intro h
        rw [show a = '_' from by simpa using h] at ha
        simp at ha
      · intro c hc
        simp only [sub3, ha, Bool.false_eq_true, if_false] at hc
        rcases List.mem_cons.mp hc with rfl | hc
        · exact Or.inl (by simp)
        · rcases ih4 c hc with h | h
          · exact Or.inl (by simp [h])
          · exact Or.inr h
      · intro c hc
        simp only [sub3Drop, ha, Bool.false_eq_true, if_false] at hc
        rcases List.mem_cons.mp hc with rfl | hc
        · exact Or.inl (by simp)
        · rcases ih4 c hc with h | h
          · exact Or.inl (by simp [h])
          · exact Or.inr h

/-- When the list does not start with an underscore the drop mode and the
scan mode of the underscore collapser agree. -/
theorem sub3Drop_eq_sub3 : ∀ l : List Char, l.head? ≠ some '_' → sub3Drop l = sub3 l := by
  intro l h
  cases l with
  | nil => rfl
  | cons a rest =>
    have ha : (a == '_') = false := by
      cases hx : a == '_' with
      | true => exact absurd (congrArg some (by simpa using hx)) (by simpa using h)
      | false => rfl
    simp only [sub3Drop, sub3, ha, Bool.false_eq_true, if_false]

/-- The underscore collapser is the identity on lists without doubled
underscores. -/
theorem sub3_id : ∀ l : List Char, noDoubleU l = true → sub3 l = l := by
  intro l
  induction l with
  | nil => intro _; rfl
  | cons a rest ih =>
    intro h
    simp only [noDoubleU, Bool.and_eq_true, Bool.not_eq_true'] at h
    obtain ⟨h1, h2⟩ := h
    cases ha : a == '_' with
    | true =>
      have hh : rest.head? ≠ some '_' := by
        rw [ha] at h1
        simp only [Bool.true_and] at h1
        intro hx
        rw [hx] at h1
        simp at h1
      simp only [sub3, ha, if_true]
      rw [sub3Drop_eq_sub3 rest hh, ih h2]
      exact congrArg (fun x => x :: rest) (Eq.symm (by simpa using ha))
    | false =>
      simp only [sub3, ha, Bool.false_eq_true, if_false]
      exact congrArg (a :: ·) (ih h2)

/-- The head of a `dropWhile` result fails the predicate. -/
theorem head?_dropWhile_false {p : Char → Bool} :
    ∀ l : List Char, ∀ c, (l.dropWhile p).head? = some c → p c = false := by
  intro l
  induction l with
  | nil => intro c hc; simp [List.dropWhile] at hc
  | cons a rest ih =>
    intro c hc
    cases ha : p a with
    | true =>
      rw [List.dropWhile_cons, if_pos (by simp [ha])] at hc
      exact ih c hc
    | false =>
      rw [List.dropWhile_cons, if_neg (by simp [ha])] at hc
      simp only [List.head?_cons, Option.some.injEq] at hc
      rw [← hc]
      exact ha

/-- `dropWhile` preserves the no-doubled-underscore property. -/
theorem noDoubleU_dropWhile {p : Char → Bool} :
    ∀ l : List Char, noDoubleU l = true → noDoubleU (l.dropWhile p) = true := by
  intro l
  induction l with
  | nil => intro _; rfl
  | cons a rest ih =>
    intro h
    have h2 : noDoubleU rest = true := by
      simp only [noDoubleU, Bool.and_eq_true] at h
      exact h.2
    cases ha : p a with
    | true =>
      rw [List.dropWhile_cons, if_pos (by simp [ha])]
      exact ih h2
    | false =>
      rw [List.dropWhile_cons, if_neg (by simp [ha])]
      exact h

/-- Characters of the trailing-underscore trimmer come from its input. -/
theorem mem_dropTrailingU : ∀ l : List Char, ∀ c ∈ dropTrailingU l, c ∈ l := by
  intro l
  induction l with
  | nil => intro c hc; simp [dropTrailingU] at hc
  | cons a rest ih =>
    intro c hc
    rw [dropTrailingU] at hc
    cases hr : dropTrailingU rest with
    | nil =>
      rw [hr] at hc
      cases hu : a == '_' with
      | true => rw [if_pos (by simp [hu])] at hc; simp at hc
      | false =>
        rw [if_neg (by simp [hu])] at hc
        simp only [List.mem_singleton] at hc
        simp [hc]
    | cons b t =>
      rw [hr] at hc
      rcases List.mem_cons.mp hc with rfl | hc
      · simp
      · exact List.mem_cons_of_mem a (ih c (by rw [hr]; exact hc))

/-- The trailing-underscore trimmer never ends in an underscore. -/
theorem getLast?_dropTrailingU : ∀ l : List Char, (dropTrailingU l).getLast? ≠ some '_' := by
  intro l
  induction l with
  | nil => simp [dropTrailingU]
  | cons a rest ih =>
    rw [dropTrailingU]
    cases hr : dropTrailingU rest with
    | nil =>
      cases hu : a == '_' with
      | true => rw [if_pos (by simp [hu])]; simp
      | false =>
        rw [if_neg (by simp [hu])]
        simp only [List.getLast?_singleton, ne_eq, Option.some.injEq]
        intro h
        rw [h] at hu
        simp at hu
    | cons b t =>
      rw [List.getLast?_cons_cons]
      rw [hr] at ih
      exact ih

/-- The trailing-underscore trimmer yields nothing or keeps the head. -/
theorem head_dropTrailingU : ∀ (c : Char) (rest : List Char),
    dropTrailingU (c :: rest) = [] ∨ (dropTrailingU (c :: rest)).head? = some c := by
  intro c rest
  rw [dropTrailingU]
  cases dropTrailingU rest with
  | nil =>
    cases hu : c == '_' with
    | true => exact Or.inl (by rw [if_pos (by simp [hu])])
    | false => exact Or.inr (by rw [if_neg (by simp [hu])]; rfl)
  | cons b t => exact Or.inr rfl

/-- Unfolding of `noDoubleU` at a cons cell. -/
theorem noDoubleU_cons (a : Char) (l : List Char) :
    noDoubleU (a :: l) = (!(a == '_' && l.head? == some '_') && noDoubleU l) := rfl

/-- The trailing-underscore trimmer preserves the no-doubled-underscore
property. -/
theorem noDoubleU_dropTrailingU : ∀ l : List Char,
    noDoubleU l = true → noDoubleU (dropTrailingU l) = true := by
  intro l
  induction l with
  | nil => intro _; rfl
  | cons a rest ih =>
    intro h
    simp only [noDoubleU, Bool.and_eq_true, Bool.not_eq_true'] at h
    obtain ⟨h1, h2⟩ := h
    rw [dropTrailingU]
    cases hr : dropTrailingU rest with
    | nil =>
      cases hu : a == '_' with
      | true => rw [if_pos (by simp [hu])]; rfl
      | false => rw [if_neg (by simp [hu])]; simp [noDoubleU]
    | cons b t =>
      have hbd : noDoubleU (b :: t) = true := by rw [← hr]; exact ih h2
      cases rest with
      | nil => simp [dropTrailingU] at hr
      | cons a2 rest2 =>
        rcases head_dropTrailingU a2 rest2 with he | hh
        · rw [he] at hr; exact absurd hr (by simp)
        · rw [hr] at hh
          simp only [List.head?_cons, Option.some.injEq] at hh
          rw [noDoubleU_cons, Bool.and_eq_true]
          refine ⟨?_, hbd⟩
          rw [Bool.not_eq_true']
          simp only [List.head?_cons, hh]
          simpa using h1

/-- A list that does not end in an underscore is untouched by the
trailing-underscore trimmer. -/
theorem dropTrailingU_id : ∀ l : List Char, l.getLast? ≠ some '_' → dropTrailingU l = l := by
  intro l
  induction l with
  | nil => intro _; rfl
  | cons a rest ih =>
    intro h
    cases rest with
    | nil =>
      have ha : (a == '_') = false := by
        cases hx : a == '_' with
        | true =>
          exact absurd (by simpa using congrArg some (show a = '_' from by simpa using hx))
            (by simpa using h)
        | false => rfl
      rw [dropTrailingU]
      simp [dropTrailingU, ha]
    | cons b t =>
      have hrec : dropTrailingU (b :: t) = b :: t := by
        apply ih
        rw [List.getLast?_cons_cons] at h
        exact h
      rw [dropTrailingU, hrec]

/-- Characters of a `dropWhile` result come from the input. -/
theorem mem_dropWhile_sub {p : Char → Bool} : ∀ l : List Char, ∀ c ∈ l.dropWhile p, c ∈ l := by
  intro l
  induction l with
  | nil => intro c hc; simp at hc
  | cons a rest ih =>
    intro c hc
    cases ha : p a with
    | true =>
      rw [List.dropWhile_cons, if_pos (by simp [ha])] at hc
      exact List.mem_cons_of_mem a (ih c hc)
    | false =>
      rw [List.dropWhile_cons, if_neg (by simp [ha])] at hc
      exact hc

/-- Characters of `stripU` come from its input. -/
theorem mem_stripU : ∀ l : List Char, ∀ c ∈ stripU l, c ∈ l := by
  intro l c hc
  exact mem_dropWhile_sub l c (mem_dropTrailingU _ c hc)

/-- The head of a `stripU` result is never an underscore. -/
theorem head?_stripU : ∀ l : List Char, (stripU l).head? ≠ some '_' := by
  intro l
  rw [stripU]
  cases hd : l.dropWhile (fun c => c == '_') with
  | nil => simp [dropTrailingU]
  | cons b t =>
    rcases head_dropTrailingU b t with he | hh
    · rw [he]; simp
    · rw [hh]
      intro hx
      have hb : b = '_' := by simpa using hx
      have := head?_dropWhile_false l b (by rw [hd]; rfl)
      rw [hb] at this
      simp at this

/-- The last character of a `stripU` result is never an underscore. -/
theorem getLast?_stripU : ∀ l : List Char, (stripU l).getLast? ≠ some '_' := by
  intro l
  exact getLast?_dropTrailingU _

/-- `stripU` preserves the no-doubled-underscore property. -/
theorem noDoubleU_stripU : ∀ l : List Char, noDoubleU l = true → noDoubleU (stripU l) = true := by
  intro l h
  exact noDoubleU_dropTrailingU _ (noDoubleU_dropWhile l h)

/-- `stripU` is the identity when neither end is an underscore. -/
theorem stripU_id : ∀ l : List Char, l.head? ≠ some '_' → l.getLast? ≠ some '_' →
    stripU l = l := by
  intro l hh hl
  rw [stripU]
  cases l with
  | nil => rfl
  | cons a rest =>
    have ha : (a == '_') = false := by
      cases hx : a == '_' with
      | true =>
        exact absurd (congrArg some (show a = '_' from by simpa using hx)) (by simpa using hh)
      | false => rfl
    rw [List.dropWhile_cons, if_neg (by simp [ha])]
    exact dropTrailingU_id _ hl

/-- Every character of a sanitized list is a word character. -/
theorem sanitizeList_word : ∀ l : List Char, ∀ c ∈ sanitizeList l, isWordChar c = true := by
  intro l c hc
  have h3 := mem_stripU _ c hc
  rcases (sub3_props (sub2 (sub1 l))).2.2.2.1 c h3 with h | h
  · exact (sub2_word (sub1 l)).1 c h
  · rw [h]; decide

/-- A sanitized list has no doubled underscore. -/
theorem sanitizeList_noDD : ∀ l : List Char, noDoubleU (sanitizeList l) = true := by
  intro l
  exact noDoubleU_stripU _ (sub3_props (sub2 (sub1 l))).1

/-- A sanitized list does not start with an underscore. -/
theorem sanitizeList_head : ∀ l : List Char, (sanitizeList l).head? ≠ some '_' := by
  intro l
  exact head?_stripU _

/-- A sanitized list does not end with an underscore. -/
theorem sanitizeList_last : ∀ l : List Char, (sanitizeList l).getLast? ≠ some '_' := by
  intro l
  exact getLast?_stripU _

/-- On an already-clean list — word characters only, no doubled underscore,
no underscore at either end — the sanitizer is the identity. -/
theorem sanitizeList_eq_self (l : List Char) (hw : ∀ c ∈ l, isWordChar c = true)
    (hd : noDoubleU l = true) (hh : l.head? ≠ some '_') (hl : l.getLast? ≠ some '_') :
    sanitizeList l = l := by
  rw [sanitizeList, sub1, sub1Go_word l hw, sub2_id_word l hw, sub3_id l hd]
  exact stripU_id l hh hl

/-- The sanitizer is idempotent at the character-list level. -/
theorem sanitizeList_idem (l : List Char) : sanitizeList (sanitizeList l) = sanitizeList l :=
  sanitizeList_eq_self _ (sanitizeList_word l) (sanitizeList_noDD l)
    (sanitizeList_head l) (sanitizeList_last l)

/-! Claim C9. -/

/-- Claim C9: `sanitizeString` is idempotent; its output consists only of
characters in `[A-Za-z0-9_]`, with no two consecutive underscores and no
leading or trailing underscore; and
`sanitize("Error: %d occurred!!") = "Error_occurred"`. -/
theorem sanitizeString_clean (s : String) :
    sanitizeString (sanitizeString s) = sanitizeString s
    ∧ (∀ c ∈ (sanitizeString s).data, isWordChar c = true)
    ∧ noDoubleU (sanitizeString s).data = true
    ∧ (sanitizeString s).data.head? ≠ some '_'
    ∧ (sanitizeString s).data.getLast? ≠ some '_'
    ∧ sanitizeString "Error: %d occurred!!" = "Error_occurred" := by
  refine ⟨?_, ?_, ?_, ?_, ?_, ?_⟩
  · exact congrArg String.mk (sanitizeList_idem s.data)
  · exact sanitizeList_word s.data
  · exact sanitizeList_noDD s.data
  · exact sanitizeList_head s.data
  · exact sanitizeList_last s.data
  · exact congrArg String.mk
      (by decide : sanitizeList "Error: %d occurred!!".data = "Error_occurred".data)

/-! Claim C6. -/

/-- A list without underscores trivially has no doubled underscore. -/
theorem noDoubleU_of_no_underscore : ∀ l : List Char,
    (∀ c ∈ l, (c == '_') = false) → noDoubleU l = true := by
  intro l
  induction l with
  | nil => intro _; rfl
  | cons a rest ih =>
    intro h
    rw [noDoubleU_cons, Bool.and_eq_true]
    refine ⟨?_, ih (fun c hc => h c (List.mem_cons_of_mem a hc))⟩
    rw [Bool.not_eq_true', Bool.and_eq_false_iff]
    exact Or.inl (h a (by simp))

set_option maxRecDepth 8000 in
/-- Claim C6, counterexample: `renameFunctionsBasedOnStrings` applies the
candidate name with no truncation (line 346 has no `[:256]`), so the name
built from a 300-character string is applied at length 302; the claim says
every name applied by the string-anchoring passes is truncated to at most
256 characters. -/
theorem funcStringName_exceeds_bound :
    256 < (funcStringName ⟨List.replicate 300 'a'⟩).length := by
  have hw : ∀ c ∈ List.replicate 300 'a', isWordChar c = true := by
    intro c hc
    rw [List.eq_of_mem_replicate hc]
    decide
  have hnu : ∀ c ∈ List.replicate 300 'a', (c == '_') = false := by
    intro c hc
    rw [List.eq_of_mem_replicate hc]
    decide
  have hh : (List.replicate 300 'a').head? ≠ some '_' := by
    intro h
    have hm : '_' ∈ List.replicate 300 'a' := List.mem_of_mem_head? h
    have hx := hnu '_' hm
    simp at hx
  have hl : (List.replicate 300 'a').getLast? ≠ some '_' := by
    intro h
    have hm : '_' ∈ List.replicate 300 'a' := List.mem_of_mem_getLast? h
    have hx := hnu '_' hm
    simp at hx
  have hsan : sanitizeList (List.replicate 300 'a') = List.replicate 300 'a' :=
    sanitizeList_eq_self _ hw (noDoubleU_of_no_underscore _ hnu) hh hl
  have hdata : (funcStringName ⟨List.replicate 300 'a'⟩).data
      = 'z' :: '_' :: List.replicate 300 'a' := by
    show ("z_" ++ sanitizeString ⟨List.replicate 300 'a'⟩).data = _
    rw [String.data_append]
    show 'z' :: '_' :: sanitizeList (List.replicate 300 'a') = _
    rw [hsan]
  show 256 < (funcStringName ⟨List.replicate 300 'a'⟩).data.length
  rw [hdata]
  simp

/-- Claim C6 (amended): the name applied to a string literal by
`fixupIdaStringNames` is `"z_"` + sanitized text truncated to at most 256
characters, but the name applied to a function by
`renameFunctionsBasedOnStrings` is `"z_"` + sanitized text with no
truncation, and can exceed 256 characters. -/
theorem stringNames_truncation (text : String) :
    (fixupStringName text).data = (funcStringName text).data.take 256
    ∧ (fixupStringName text).length ≤ 256
    ∧ (funcStringName text).data = 'z' :: '_' :: (sanitizeString text).data := by
  refine ⟨rfl, ?_, ?_⟩
  · show ((funcStringName text).data.take 256).length ≤ 256
    rw [List.length_take]
    exact min_le_left _ _
  · show ("z_" ++ sanitizeString text).data = _
    rw [String.data_append]
    rfl

/-! Claim C7: edge culling in the Markov model. -/

/-- One step of the edge-count lookup. -/
theorem lookupCount_cons (q : Nat × Nat) (rest : List (Nat × Nat)) (k : Nat) :
    lookupCount (q :: rest) k = if q.1 == k then q.2 else lookupCount rest k := by
  cases hq : q.1 == k with
  | true => simp [lookupCount, List.find?, hq]
  | false => simp [lookupCount, List.find?, hq]

/-- With distinct destination keys the lookup of a present edge returns its
count. -/
theorem lookupCount_eq : ∀ (edges : List (Nat × Nat)), (edges.map Prod.fst).Nodup →
    ∀ p ∈ edges, lookupCount edges p.1 = p.2 := by
  intro edges
  induction edges with
  | nil => intro _ p hp; simp at hp
  | cons q rest ih =>
    intro hk p hp
    have hk' : q.1 ∉ rest.map Prod.fst ∧ (rest.map Prod.fst).Nodup := by
      rw [List.map_cons, List.nodup_cons] at hk
      exact hk
    cases hq : q.1 == p.1 with
    | true =>
      have hqp : q.1 = p.1 := by simpa using hq
      rcases List.mem_cons.mp hp with rfl | hmem
      · rw [lookupCount_cons, if_pos (by simp)]
      · exact absurd (hqp ▸ List.mem_map_of_mem Prod.fst hmem) hk'.1
    | false =>
      rcases List.mem_cons.mp hp with rfl | hmem
      · simp at hq
      · rw [lookupCount_cons, if_neg (by simp [hq])]
        exact ih hk'.2 p hmem

/-- Membership in the culled edge set. -/
theorem mem_cull (s : MarkovState) (c : ℚ) (p : Nat × Nat) :
    p ∈ (s.cull c).edges ↔ p ∈ s.edges ∧ ¬ s.weight p.1 < c := by
  show p ∈ s.edges.filter _ ↔ _
  rw [List.mem_filter]
  simp

/-- A present edge bounds the count sum from below; equality forces the
singleton list. -/
theorem mem_sum_le : ∀ (l : List (Nat × Nat)) (a : Nat × Nat), a ∈ l →
    (∀ p ∈ l, 1 ≤ p.2) →
    a.2 ≤ (l.map Prod.snd).sum ∧ ((l.map Prod.snd).sum ≤ a.2 → l = [a]) := by
  intro l
  induction l with
  | nil => intro a ha _; simp at ha
  | cons q rest ih =>
    intro a ha hpos
    rw [List.map_cons, List.sum_cons]
    rcases List.mem_cons.mp ha with rfl | hmem
    · constructor
      · omega
      · intro hle
        have hrest0 : (rest.map Prod.snd).sum = 0 := by omega
        have hempty : rest = [] := by
          cases hx : rest with
          | nil => rfl
          | cons c r =>
            have hc := hpos c (by rw [hx]; simp)
            rw [hx, List.map_cons, List.sum_cons] at hrest0
            omega
        rw [hempty]
    · have hq := hpos q (by simp)
      have hrec := ih a hmem (fun p hp => hpos p (List.mem_cons_of_mem q hp))
      constructor
      · omega
      · intro hle
        exact absurd hle (by omega)

/-- Two distinct present edges bound the count sum from below; equality
forces exactly those two edges. -/
theorem two_mem_sum : ∀ (l : List (Nat × Nat)) (a b : Nat × Nat), a ∈ l → b ∈ l →
    a ≠ b → (∀ p ∈ l, 1 ≤ p.2) →
    a.2 + b.2 ≤ (l.map Prod.snd).sum
    ∧ ((l.map Prod.snd).sum ≤ a.2 + b.2 → l.length = 2 ∧ ∀ p ∈ l, p = a ∨ p = b) := by
  intro l
  induction l with
  | nil => intro a b ha _ _ _; simp at ha
  | cons q rest ih =>
    intro a b ha hb hne hpos
    have hposr : ∀ p ∈ rest, 1 ≤ p.2 := fun p hp => hpos p (List.mem_cons_of_mem q hp)
    rw [List.map_cons, List.sum_cons]
    rcases List.mem_cons.mp ha with rfl | hamem
    · have hbmem : b ∈ rest := by
        rcases List.mem_cons.mp hb with h | h
        · exact absurd h.symm hne
        · exact h
      have hrec := mem_sum_le rest b hbmem hposr
      constructor
      · omega
      · intro hle
        have hrest : rest = [b] := hrec.2 (by omega)
        refine ⟨by rw [hrest]; rfl, ?_⟩
        intro p hp
        rcases List.mem_cons.mp hp with rfl | hp2
        · exact Or.inl rfl
        · rw [hrest] at hp2
          simp only [List.mem_singleton] at hp2
          exact Or.inr hp2
    · rcases List.mem_cons.mp hb with rfl | hbmem
      · have hrec := mem_sum_le rest a hamem hposr
        constructor
        · omega
        · intro hle
          have hrest : rest = [a] := hrec.2 (by omega)
          refine ⟨by rw [hrest]; rfl, ?_⟩
          intro p hp
          rcases List.mem_cons.mp hp with rfl | hp2
          · exact Or.inr rfl
          · rw [hrest] at hp2
            simp only [List.mem_singleton] at hp2
            exact Or.inl hp2
      · have hq := hpos q (by simp)
        have hrec := ih a b hamem hbmem hne hposr
        constructor
        · omega
        · intro hle
          exact absurd hle (by omega)

/-- Claim C7: `cull(cutoff)` removes, for every source state, exactly the
edges whose weight `edges[to]/totalCount` is strictly below the cutoff;
consequently, after `cull(0.5)` a source with two or more destinations keeps
at most one edge, except when it has exactly two destinations of weight
exactly `1/2` each, in which case both survive.  The hypotheses are the
dictionary invariants of a state built by `addTransition`: distinct
destination keys, the total equal to the sum of the counts, every count
positive. -/
theorem markov_cull_semantics (s : MarkovState)
    (hk : (s.edges.map Prod.fst).Nodup)
    (hsum : s.transistions_total = (s.edges.map Prod.snd).sum)
    (hpos : ∀ p ∈ s.edges, 1 ≤ p.2) :
    (∀ cutoff : ℚ, ∀ p ∈ s.edges, (p ∈ (s.cull cutoff).edges ↔ ¬ s.weight p.1 < cutoff))
    ∧ (2 ≤ s.edges.length →
        ((s.cull (1/2)).edges.length ≤ 1
          ∨ (s.edges.length = 2 ∧ (∀ p ∈ s.edges, s.weight p.1 = 1/2)
              ∧ (s.cull (1/2)).edges = s.edges))) := by
  constructor
  · intro cutoff p hp
    rw [mem_cull]
    exact ⟨fun h => h.2, fun h => ⟨hp, h⟩⟩
  · intro hlen2
    by_cases hle : (s.cull (1/2)).edges.length ≤ 1
    · exact Or.inl hle
    · right
      obtain ⟨a, b, t, hab⟩ : ∃ a b t, (s.cull (1/2)).edges = a :: b :: t := by
        cases hx : (s.cull (1/2)).edges with
        | nil => rw [hx] at hle; simp at hle
        | cons a r =>
          cases r with
          | nil => rw [hx] at hle; simp at hle
          | cons b t => exact ⟨a, b, t, rfl⟩
      have hamem : a ∈ (s.cull (1/2)).edges := by rw [hab]; simp
      have hbmem : b ∈ (s.cull (1/2)).edges := by rw [hab]; simp
      have ha := (mem_cull s (1/2) a).mp hamem
      have hb := (mem_cull s (1/2) b).mp hbmem
      have hsub : ((s.cull (1/2)).edges.map Prod.fst).Nodup := by
        have hsl : (s.cull (1/2)).edges.Sublist s.edges := List.filter_sublist s.edges
        exact hk.sublist (hsl.map Prod.fst)
      have hkey : a.1 ≠ b.1 := by
        rw [hab] at hsub
        simp only [List.map_cons, List.nodup_cons] at hsub
        intro hx
        apply hsub.1
        rw [hx]
        exact List.mem_cons_self _ _
      have hne : a ≠ b := fun hx => hkey (by rw [hx])
      have hq2 := two_mem_sum s.edges a b ha.1 hb.1 hne hpos
      have hapos := hpos a ha.1
      have hbpos := hpos b hb.1
      have hTpos : 0 < s.transistions_total := by omega
      have hTQ : (0:ℚ) < (s.transistions_total : ℚ) := by exact_mod_cast hTpos
      have hTa : s.transistions_total ≤ 2 * a.2 := by
        have hwa : (1:ℚ)/2 ≤ s.weight a.1 := not_lt.mp ha.2
        rw [MarkovState.weight, lookupCount_eq s.edges hk a ha.1,
          div_le_div_iff₀ (by norm_num) hTQ] at hwa
        have hq : (s.transistions_total : ℚ) ≤ (a.2 : ℚ) * 2 := by linarith
        have hn : s.transistions_total ≤ a.2 * 2 := by exact_mod_cast hq
        omega
      have hTb : s.transistions_total ≤ 2 * b.2 := by
        have hwb : (1:ℚ)/2 ≤ s.weight b.1 := not_lt.mp hb.2
        rw [MarkovState.weight, lookupCount_eq s.edges hk b hb.1,
          div_le_div_iff₀ (by norm_num) hTQ] at hwb
        have hq : (s.transistions_total : ℚ) ≤ (b.2 : ℚ) * 2 := by linarith
        have hn : s.transistions_total ≤ b.2 * 2 := by exact_mod_cast hq
        omega
      have hsum_le : (s.edges.map Prod.snd).sum ≤ a.2 + b.2 := by omega
      obtain ⟨hlen, hmem2⟩ := hq2.2 hsum_le
      have haeqb : a.2 = b.2 := by omega
      have hT2 : s.transistions_total = 2 * a.2 := by omega
      have hwall : ∀ p ∈ s.edges, s.weight p.1 = 1/2 := by
        intro p hp
        have hpin := hmem2 p hp
        have hcast : ((2 * a.2 : Nat) : ℚ) = 2 * (a.2 : ℚ) := by push_cast; ring
        have hanz : (a.2 : ℚ) ≠ 0 := by
          have hgt : (0:ℚ) < (a.2 : ℚ) := by exact_mod_cast hapos
          linarith
        rcases hpin with rfl | rfl
        · rw [MarkovState.weight, lookupCount_eq s.edges hk p hp, hT2, hcast]
          rw [div_eq_iff (by simpa using hanz)]
          ring
        · rw [MarkovState.weight, lookupCount_eq s.edges hk p hp, hT2, hcast, ← haeqb]
          rw [div_eq_iff (by simpa using hanz)]
          ring
      refine ⟨hlen, hwall, ?_⟩
      show s.edges.filter _ = s.edges
      rw [List.filter_eq_self]
      intro p hp
      rw [Bool.not_eq_eq_eq_not, Bool.not_true, decide_eq_false_iff_not, hwall p hp]
      exact lt_irrefl _

/-- Claim C7, witness: the boundary state with two destinations of one
transition each — both weights are exactly `1/2` and both edges survive
`cull(1/2)`. -/
theorem markov_cull_semantics_witness :
    (([((1:Nat), (1:Nat)), (2, 1)].map Prod.fst).Nodup
      ∧ (2:Nat) = ([((1:Nat), (1:Nat)), (2, 1)].map Prod.snd).sum
      ∧ (∀ p ∈ [((1:Nat), (1:Nat)), (2, 1)], 1 ≤ p.2))
    ∧ ((⟨7, 2, [(1, 1), (2, 1)]⟩ : MarkovState).cull (1/2)).edges
        = (⟨7, 2, [(1, 1), (2, 1)]⟩ : MarkovState).edges := by
  have w1 : (⟨7, 2, [(1, 1), (2, 1)]⟩ : MarkovState).weight 1 = 1/2 := by
    show ((lookupCount [(1, 1), (2, 1)] 1 : ℚ)) / (((2 : Nat) : ℚ)) = 1/2
    norm_num [lookupCount]
  have w2 : (⟨7, 2, [(1, 1), (2, 1)]⟩ : MarkovState).weight 2 = 1/2 := by
    show ((lookupCount [(1, 1), (2, 1)] 2 : ℚ)) / (((2 : Nat) : ℚ)) = 1/2
    norm_num [lookupCount]
  have hcull : ((⟨7, 2, [(1, 1), (2, 1)]⟩ : MarkovState).cull (1/2)).edges
      = [(1, 1), (2, 1)] := by
    simp only [MarkovState.cull, List.filter_cons, List.filter_nil, w1, w2]
    norm_num
  refine ⟨⟨by decide, by decide, by decide⟩, ?_⟩
  have hthm := (markov_cull_semantics ⟨7, 2, [(1, 1), (2, 1)]⟩ (by decide) (by decide)
    (by decide)).2 (by decide)
  have hnot : ¬ (((⟨7, 2, [(1, 1), (2, 1)]⟩ : MarkovState).cull (1/2)).edges.length ≤ 1) := by
    rw [hcull]
    decide
  exact (hthm.resolve_left hnot).2.2

/-! Claim C10: per-destination renaming inside one `tester` pass. -/

/-- Filtering out the entries of one key does not change lookups of another
key. -/
theorem find?_filter_ne (l : List (Nat × String)) (a b : Nat) (hba : b ≠ a) :
    List.find? (fun p => p.1 == b) (l.filter (fun p => p.1 != a))
      = List.find? (fun p => p.1 == b) l := by
  induction l with
  | nil => rfl
  | cons q rest ih =>
    cases hq : q.1 == b with
    | true =>
      have hqb : q.1 = b := by simpa using hq
      have hqa : (q.1 != a) = true := by
        rw [hqb]
        exact bne_iff_ne.mpr hba
      rw [List.filter_cons, if_pos (by simp [hqa])]
      simp only [List.find?, hq]
    | false =>
      cases hqa : q.1 != a with
      | true =>
        rw [List.filter_cons, if_pos (by simp [hqa])]
        simp only [List.find?, hq]
        exact ih
      | false =>
        rw [List.filter_cons, if_neg (by simp [hqa])]
        simp only [List.find?, hq]
        exact ih

/-- Renaming one address leaves every other address's name unchanged. -/
theorem getName_setUser_ne (st : BState) (a : Nat) (n : String) (b : Nat) (hba : b ≠ a) :
    getName (setUser st a n) b = getName st b := by
  have hab : ((a, n).1 == b) = false := by
    cases hx : (a, n).1 == b with
    | true =>
      have hx' : a = b := by simpa using hx
      exact absurd hx'.symm hba
    | false => rfl
  have h1 : (setUser st a n).user = (a, n) :: st.user.filter (fun p => p.1 != a) := rfl
  rw [getName, getName, h1]
  simp only [List.find?, hab]
  rw [find?_filter_ne st.user a b hba]

/-- Accounting of the inner destination loop: with the source absent from the
destination list, every destination named, and no call hitting the no-op
branch, a successful loop increments the change count once per destination
and commits one rename per destination, each audited with the stale source
name as the old name. -/
theorem testerVisitEdges_spec (s : Nat) (srcName : String) :
    ∀ (ds : List Nat) (st : BState) (stats : Stats) (changes : Nat)
      (st' : BState) (stats' : Stats) (c : Nat),
      s ∉ ds →
      (∀ d ∈ ds, isNamedStr (getName st d) = true) →
      (∀ d ∈ ds, (srcName == ("z_" ++ stripExistingPrefix (getName st d))
          || strStarts srcName ("z_" ++ stripExistingPrefix (getName st d))) = false) →
      testerVisitEdges s srcName st stats changes ds = .ok (st', stats', c) →
      c = changes + ds.length
      ∧ stats'.renamesTotal = stats.renamesTotal + ds.length
      ∧ ∃ entries, stats'.audit = stats.audit ++ entries ∧ entries.length = ds.length
          ∧ ∀ e ∈ entries, e.1 = srcName := by
  intro ds
  induction ds with
  | nil =>
    intro st stats changes st' stats' c _ _ _ hok
    rw [show testerVisitEdges s srcName st stats changes []
        = Except.ok (st, stats, changes) from rfl] at hok
    injection hok with h
    injection h with ha hb
    injection hb with hb1 hb2
    subst ha
    subst hb1
    subst hb2
    refine ⟨by simp, by simp, [], by simp, rfl, by simp⟩
  | cons d rest ih =>
    intro st stats changes st' stats' c hnin hnamed hnoop hok
    have hds : s ≠ d := fun h => hnin (h ▸ List.mem_cons_self d rest)
    have hdr : s ∉ rest := fun h => hnin (List.mem_cons_of_mem d h)
    have hdn := hnamed d (List.mem_cons_self d rest)
    have hnoopd := hnoop d (List.mem_cons_self d rest)
    simp only [testerVisitEdges, hdn, if_true] at hok
    cases hf : (snCandidates ("z_" ++ stripExistingPrefix (getName st d))).find?
        (isFreeName st s) with
    | none =>
      have hsb : safeNameB st stats s ("z_" ++ stripExistingPrefix (getName st d)) srcName
          = .error (st, ⟨stats.renamesTotal + 1, stats.audit⟩) := by
        simp [safeNameB, safeNameStats, safeName, hnoopd, hf]
      rw [hsb] at hok
      simp at hok
    | some n =>
      have hsb : safeNameB st stats s ("z_" ++ stripExistingPrefix (getName st d)) srcName
          = .ok (setUser st s n, ⟨stats.renamesTotal + 1, stats.audit ++ [(srcName, n)]⟩) := by
        simp [safeNameB, safeNameStats, safeName, hnoopd, hf]
      rw [hsb] at hok
      have hnamed' : ∀ d2 ∈ rest, isNamedStr (getName (setUser st s n) d2) = true := by
        intro d2 hd2
        rw [getName_setUser_ne st s n d2 (fun h => hdr (h ▸ hd2))]
        exact hnamed d2 (List.mem_cons_of_mem d hd2)
      have hnoop' : ∀ d2 ∈ rest,
          (srcName == ("z_" ++ stripExistingPrefix (getName (setUser st s n) d2))
            || strStarts srcName
                ("z_" ++ stripExistingPrefix (getName (setUser st s n) d2))) = false := by
        intro d2 hd2
        rw [getName_setUser_ne st s n d2 (fun h => hdr (h ▸ hd2))]
        exact hnoop d2 (List.mem_cons_of_mem d hd2)
      obtain ⟨hc, hr, entries, he, hel, hefst⟩ :=
        ih (setUser st s n) ⟨stats.renamesTotal + 1, stats.audit ++ [(srcName, n)]⟩
          (changes + 1) st' stats' c hdr hnamed' hnoop' hok
      refine ⟨by simp only [List.length_cons]; omega, ?_, (srcName, n) :: entries, ?_, ?_, ?_⟩
      · simp only [hr, List.length_cons]
        omega
      · rw [he]
        simp
      · simp only [List.length_cons, hel]
      · intro e he2
        rcases List.mem_cons.mp he2 with rfl | he3
        · rfl
        · exact hefst e he3

/-- Claim C10: in one `tester` pass, a source that is unnamed at its visit
and whose surviving edges reach `k` named destinations has `safeName`
invoked once per destination — each call passing the stale pre-visit name as
`oldName` (every audit entry's old name is the pre-visit source name) — so
the source is renamed once per destination and the pass's change count grows
by `k`, not by one per source. -/
theorem tester_multi_edge_renames (st : BState) (stats : Stats) (s : Nat) (ds : List Nat)
    (hsrc : isNamedStr (getName st s) = false)
    (hnin : s ∉ ds)
    (hnamed : ∀ d ∈ ds, isNamedStr (getName st d) = true)
    (hnoop : ∀ d ∈ ds, (getName st s == ("z_" ++ stripExistingPrefix (getName st d))
        || strStarts (getName st s) ("z_" ++ stripExistingPrefix (getName st d))) = false)
    (st' : BState) (stats' : Stats) (c : Nat)
    (hok : testerVisitSource st stats s ds = .ok (st', stats', c)) :
    c = ds.length
    ∧ stats'.renamesTotal = stats.renamesTotal + ds.length
    ∧ ∃ entries, stats'.audit = stats.audit ++ entries ∧ entries.length = ds.length
        ∧ ∀ e ∈ entries, e.1 = getName st s := by
  simp only [testerVisitSource, hsrc, Bool.false_eq_true, if_false] at hok
  have h := testerVisitEdges_spec s (getName st s) ds st stats 0 st' stats' c
    hnin hnamed hnoop hok
  obtain ⟨h1, h2, h3⟩ := h
  exact ⟨by omega, h2, h3⟩

/-- Claim C10, witness: an unnamed source `0` with two surviving edges to the
named destinations `1` (`"alpha"`) and `2` (`"beta"`) is renamed twice in one
visit — first to `"z_alpha"`, then to `"z_beta"` — with both audit entries
carrying the stale old name `"sub_0"`, and the change count grows by two. -/
theorem tester_multi_edge_renames_witness :
    testerVisitSource ⟨[(1, "alpha"), (2, "beta")]⟩ ⟨0, []⟩ 0 [1, 2] =
      .ok (⟨[(0, "z_beta"), (1, "alpha"), (2, "beta")]⟩,
        ⟨2, [("sub_0", "z_alpha"), ("sub_0", "z_beta")]⟩, 2)
    ∧ 2 = [1, 2].length
    ∧ (⟨2, [("sub_0", "z_alpha"), ("sub_0", "z_beta")]⟩ : Stats).renamesTotal
        = (⟨0, []⟩ : Stats).renamesTotal + [1, 2].length := by
  have hok : testerVisitSource ⟨[(1, "alpha"), (2, "beta")]⟩ ⟨0, []⟩ 0 [1, 2] =
      .ok (⟨[(0, "z_beta"), (1, "alpha"), (2, "beta")]⟩,
        ⟨2, [("sub_0", "z_alpha"), ("sub_0", "z_beta")]⟩, 2) := by rfl
  have hth := tester_multi_edge_renames ⟨[(1, "alpha"), (2, "beta")]⟩ ⟨0, []⟩ 0 [1, 2]
    (by decide) (by decide) (by decide) (by decide) _ _ _ hok
  exact ⟨hok, hth.1, hth.2.1⟩
